import Mathlib

/-!
Verification of the RoSSH repository against its specification.

The development shallowly embeds the byte-level and control-flow parts of
`rossh_common.py`, `rossh_server.py` and `rossh_client.py`:

* byte strings become `List Nat`;
* Python's `bytes.find` becomes `bytesFind` (first index of an occurrence);
* `find_ctlseq_param` / `build_ctlseq` / `write_to_master_fd` become pure
  functions (`RuntimeError` becomes an explicit `incomplete` / `.error` value);
* the streaming matcher `PatternFinder` (with `BUFLEN = 100`) becomes a
  structure with the same `append` / `find_with_tail` operations, and the
  caller protocol "call `find_with_tail` on each chunk, `append` every
  non-matching chunk, forward non-matching chunks" becomes `feedChunks`;
* the filesystem / process loops that the claims mention (the endpoint's
  relay loop in `Session.attach`, the version check of `__main__`, the
  orphan scan `arg_orphaned_sessions`, the `raw_tty` context manager, and
  the module import list of `rossh_server.py`) become small state machines
  or pure functions over explicit inputs.
-/

namespace RoSSH

/-- Byte values of a list of characters (all source constants are ASCII). -/
def bytesOfChars (l : List Char) : List Nat := l.map Char.toNat

/-- `ctlseq_special = 'rossh_173e6793-122c'` from `rossh_common.py`. -/
def ctlseq_special : List Nat :=
  bytesOfChars ['r','o','s','s','h','_','1','7','3','e','6','7','9','3','-','1','2','2','c']

/-- `ctlseq_begin = b'BC'` from `rossh_common.py`. -/
def ctlseq_begin : List Nat := bytesOfChars ['B','C']

/-- `ctlseq_end = b'ECrossh'` from `rossh_common.py`. -/
def ctlseq_end : List Nat := bytesOfChars ['E','C','r','o','s','s','h']

/-- Helper for `bytesFind`: first index `≥ i` (in the original list) at which
`pat` occurs, scanning the remaining list `l`; mirrors `bytes.find`. -/
def findAux (pat : List Nat) : List Nat → Nat → Option Nat
  | [], i => if pat.isPrefixOf [] then some i else none
  | a :: t, i => if pat.isPrefixOf (a :: t) then some i else findAux pat t (i + 1)

/-- Python's `data.find(pat)`: index of the first occurrence of `pat` in
`data`, `none` when there is none (Python returns `-1`). -/
def bytesFind (data pat : List Nat) : Option Nat := findAux pat data 0

/-- `pat` occurs somewhere in `l` (as a contiguous substring). -/
def occurs (pat l : List Nat) : Prop := ∃ m, pat.isPrefixOf (l.drop m) = true

/-- The `begin` marker that `find_ctlseq_param` searches for:
`ctlseq_begin + ctlseq_special` followed by all the `args` chunks.
`build_ctlseq` produces exactly this marker followed by the payload. -/
def ctl_begin_of (args : List (List Nat)) : List Nat :=
  ctlseq_begin ++ (ctlseq_special ++ args.flatten)

/-- Result of `find_ctlseq_param`: `(None, None)`, a raised
`RuntimeError('incomplete ctlseq param ...')`, or `(payload, remainder)`. -/
inductive CtlFindResult where
  | noMatch : CtlFindResult
  | incomplete : CtlFindResult
  | found (payload remainder : List Nat) : CtlFindResult
deriving DecidableEq

/-- `find_ctlseq_param` from `rossh_common.py` (with `output_str=False`):
search for `begin = ctlseq_begin + ctlseq_special + args...`; if absent
return `(None, None)`; otherwise search the data following the first
occurrence for `ctlseq_end`; if absent raise; otherwise return the bytes
before the end marker and the bytes after it. -/
def find_ctlseq_param (data : List Nat) (args : List (List Nat)) : CtlFindResult :=
  match bytesFind data (ctl_begin_of args) with
  | none => .noMatch
  | some st =>
    match bytesFind (data.drop (st + (ctl_begin_of args).length)) ctlseq_end with
    | none => .incomplete
    | some ed =>
      .found ((data.drop (st + (ctl_begin_of args).length)).take ed)
        ((data.drop (st + (ctl_begin_of args).length)).drop (ed + ctlseq_end.length))

/-- `build_ctlseq` from `rossh_common.py`:
`ctlseq_begin + ctlseq_special + (each arg) + ctlseq_end`. -/
def build_ctlseq (args : List (List Nat)) : List Nat :=
  ctl_begin_of args ++ ctlseq_end

/-- The `'WS'` opcode bytes used by `write_to_master_fd`. -/
def wsOpcode : List Nat := bytesOfChars ['W','S']

/-- `write_to_master_fd` from `rossh_common.py`, as a pure function from the
delivered byte string to (window size applied via `TIOCSWINSZ`, bytes
forwarded to the master).  The `RuntimeError` that `find_ctlseq_param` can
raise propagates as `.error`. -/
def write_to_master_fd (data : List Nat) : Except String (Option (List Nat) × List Nat) :=
  match find_ctlseq_param data [wsOpcode] with
  | .noMatch => .ok (none, data)
  | .incomplete => .error "incomplete ctlseq param for WS"
  | .found ws remain => .ok (some ws, remain)

/-- Python's `l[-n:]` on bytes: the last `min n (length l)` elements. -/
def takeRight (n : Nat) (l : List Nat) : List Nat := l.drop (l.length - n)

/-- `PatternFinder.BUFLEN` from `rossh_common.py`. -/
def BUFLEN : Nat := 100

/-- The streaming matcher state: `self.tail_buf`. -/
structure PatternFinder where
  tail_buf : List Nat

/-- `PatternFinder.append`: `self.tail_buf = (self.tail_buf + data)[-self.BUFLEN:]`. -/
def PatternFinder.append (pf : PatternFinder) (data : List Nat) : PatternFinder :=
  ⟨takeRight BUFLEN (pf.tail_buf ++ data)⟩

/-- `PatternFinder.find_with_tail`: search `self.tail_buf[-(len(pattern)-1):] + data`
for `pattern`; on a hit return the bytes of `data` before the match and the
bytes of `data` after the match (Python's guarded slice `data[:p -
tail_head_len] if p >= tail_head_len else b''` coincides with truncated
subtraction on `Nat`). -/
def PatternFinder.find_with_tail (pf : PatternFinder) (data pattern : List Nat) :
    Option (List Nat × List Nat) :=
  match bytesFind (takeRight (pattern.length - 1) pf.tail_buf ++ data) pattern with
  | none => none
  | some p =>
    some (data.take (p - min (pattern.length - 1) pf.tail_buf.length),
      data.drop (p + pattern.length - min (pattern.length - 1) pf.tail_buf.length))

/-- The caller protocol of `PatternFinder` (as in `rossh_client.py`): feed the
chunks one at a time; a chunk with no match is appended to the tail buffer and
forwarded (accumulated in `out`); the first matching chunk stops the scan and
yields the total forwarded output plus the match's `before` slice, the match's
`after` slice, and the chunks not yet consumed. -/
def feedChunks (pf : PatternFinder) (pattern out : List Nat) :
    List (List Nat) → Option (List Nat × List Nat × List (List Nat))
  | [] => none
  | c :: cs =>
    match pf.find_with_tail c pattern with
    | some (b, a) => some (out ++ b, a, cs)
    | none => feedChunks (pf.append c) pattern (out ++ c) cs

/-- `rossh_version_index = 4` from `rossh_common.py`. -/
def rossh_version_index : Nat := 4

/-- Opcode bytes of the `CONN:FL:VER:SERVER_UPDATE` frame. -/
def verServerUpdateOp : List Nat :=
  bytesOfChars ['C','O','N','N',':','F','L',':','V','E','R',':',
    'S','E','R','V','E','R','_','U','P','D','A','T','E']

/-- Opcode bytes of the `CONN:FL:VER:CLIENT_TOOOLD` frame. -/
def verClientToooldOp : List Nat :=
  bytesOfChars ['C','O','N','N',':','F','L',':','V','E','R',':',
    'C','L','I','E','N','T','_','T','O','O','O','L','D']

/-- The version check at the top of `__main__` in `rossh_server.py`: two
sequential `if`s, each printing a frame and calling `sys.exit(1)`.  The result
is `some (emitted frame, exit code)` when the program stops there and `none`
when it proceeds past the check without emitting either frame. -/
def version_check (own client : Nat) : Option (List Nat × Nat) :=
  if own < client then some (build_ctlseq [verServerUpdateOp], 1)
  else if client < own then some (build_ctlseq [verClientToooldOp], 1)
  else none

/-- Readiness events delivered to the relay loop of `Session.attach` in
`rossh_server.py`: a read on standard input or on the output pipe returns
either data or the empty string (EOF). -/
inductive AttachEvent where
  | stdinData (d : List Nat)
  | stdinEOF
  | outData (d : List Nat)
  | outEOF
deriving DecidableEq

/-- An event that carries data (the loop keeps running on it). -/
def AttachEvent.isData : AttachEvent → Bool
  | .stdinData _ => true
  | .outData _ => true
  | _ => false

/-- What the endpoint does once its relay loop ends: whether
`shutil.rmtree(self.RoSSH_DIR)` ran, which control frames were emitted after
the loop, and the process exit status. -/
structure AttachOutcome where
  removedSessionDir : Bool
  framesEmitted : List (List Nat)
  exitCode : Nat
deriving DecidableEq

/-- The `CONN:E` frame written by `Session.attach` after a graceful end. -/
def connE_frame : List Nat := build_ctlseq [bytesOfChars ['C','O','N','N',':','E']]

/-- The relay loop of `Session.attach` in `rossh_server.py`, as a state
machine over the serialized readiness events: data is relayed and the loop
continues; EOF on standard input logs and exits with status 1 (no cleanup, no
`CONN:E`); EOF on the output pipe breaks the loop, after which the session
directory is removed, `CONN:E` is written and the program ends with status 0.
`none` means the loop is still running (no EOF seen yet). -/
def attach_loop : List AttachEvent → Option AttachOutcome
  | [] => none
  | .stdinData _ :: es => attach_loop es
  | .outData _ :: es => attach_loop es
  | .stdinEOF :: _ => some ⟨false, [], 1⟩
  | .outEOF :: _ => some ⟨true, [connE_frame], 0⟩

/-- The filename prefix `'.orphan.'` checked by `arg_orphaned_sessions`. -/
def orphanMarkerPre : List Char := ['.', 'o', 'r', 'p', 'h', 'a', 'n', '.']

/-- The literal `' --kill '` prepended by `arg_orphaned_sessions`. -/
def killOption : List Char := [' ', '-', '-', 'k', 'i', 'l', 'l', ' ']

/-- Python's `' '.join`. -/
def spaceJoin : List (List Char) → List Char
  | [] => []
  | [x] => x
  | x :: xs => x ++ (' ' :: spaceJoin xs)

/-- The scanning loop of `arg_orphaned_sessions` in `rossh_client.py`: the
directory listing becomes a list of `(filename, lock acquirable?)` pairs,
where the boolean is true exactly when `lock_fd` (exclusive, non-blocking
`flock`) succeeds, i.e. when no live process holds the marker's lock.  For
each listed file whose first 8 characters are `'.orphan.'` and whose lock can
be acquired, the rest of the filename is collected, in listing order. -/
def orphan_scan : List (List Char × Bool) → List (List Char)
  | [] => []
  | (fname, lockFree) :: rest =>
    if fname.take 8 = orphanMarkerPre then
      (if lockFree then fname.drop 8 :: orphan_scan rest else orphan_scan rest)
    else orphan_scan rest

/-- `arg_orphaned_sessions` from `rossh_client.py`: `' --kill '` followed by
the space-joined collected ids, or the empty string when none were found. -/
def arg_orphaned_sessions (entries : List (List Char × Bool)) : List Char :=
  if orphan_scan entries = [] then [] else killOption ++ spaceJoin (orphan_scan entries)

/-- The terminal attribute state of standard input: `none` when standard
input is not a terminal (so `tcgetattr` raises `termios.error`), otherwise
`some` of the current attribute word (modelled abstractly as a `Nat`). -/
structure TtyWorld where
  attrs : Option Nat
deriving DecidableEq

/-- `tty.tcgetattr`: fails exactly when standard input is not a terminal. -/
def tcgetattr (w : TtyWorld) : Except Unit Nat :=
  match w.attrs with
  | none => .error ()
  | some m => .ok m

/-- `tty.setraw`: replaces the attributes by their raw-mode variant (the
concrete flag manipulation is abstracted into the function `rawOf`). -/
def setraw (rawOf : Nat → Nat) (w : TtyWorld) : TtyWorld :=
  match w.attrs with
  | none => w
  | some m => ⟨some (rawOf m)⟩

/-- `tty.tcsetattr(fd, TCSAFLUSH, m)`: installs the attribute word `m`. -/
def tcsetattr (m : Nat) (w : TtyWorld) : TtyWorld :=
  match w.attrs with
  | none => w
  | some _ => ⟨some m⟩

/-- The `raw_tty` context manager of `rossh_common.py` run around a `body`.
The body transforms the terminal state and reports whether it raised
(`true` = exceptional exit); the returned pair is the final terminal state
and the propagated exception flag.  When `tcgetattr` fails (`restore = 0`)
the `finally` block does nothing; otherwise it always runs
`tcsetattr(saved mode)`. -/
def raw_tty_run (rawOf : Nat → Nat) (w : TtyWorld) (body : TtyWorld → TtyWorld × Bool) :
    TtyWorld × Bool :=
  match tcgetattr w with
  | .error () => body w
  | .ok mode => (tcsetattr mode (body (setraw rawOf w)).1, (body (setraw rawOf w)).2)

/-- Names bound at module level by `rossh_common.py` (its `import`ed modules
and its own definitions), i.e. the attributes a `from rossh_common import …`
can resolve. -/
def rossh_common_module_names : List String :=
  ["os", "fcntl", "termios", "contextlib", "tty", "sys", "signal", "random", "string",
   "rossh_version_index", "ctlseq_special", "ctlseq_begin", "ctlseq_end",
   "gen_term_id", "to_bytes", "find_ctlseq_param", "build_ctlseq", "write_to",
   "write_to_master_fd", "change_signal", "forward_window_resize", "raw_tty",
   "lock_fd", "PatternFinder"]

/-- The names `rossh_server.py` imports from `rossh_common` (lines 18–26). -/
def rossh_server_import_list : List String :=
  ["rossh_version_index", "build_ctlseq", "write_to", "write_to_master_fd",
   "change_signal", "forward_window_resize", "raw_tty", "set_sync_output"]

/-- Result of invoking `rossh_server.py`: either the module-level
`from rossh_common import …` raises `ImportError` (nothing later runs, no
frame is emitted), or the program reaches `__main__` and proceeds to the
version check. -/
inductive ServerRunResult where
  | importError : ServerRunResult
  | ranMain (framesEmitted : List (List Nat)) (exitCode : Option Nat) : ServerRunResult
deriving DecidableEq

/-- Invocation of `rossh_server.py` with a client version `-V clientVersion`:
the import statement resolves every imported name against `rossh_common`'s
module attributes before any other statement executes; only if all resolve
does execution continue into argument parsing and the version check
(exit code `none` = the program continues past the check). -/
def rossh_server_run (clientVersion : Nat) : ServerRunResult :=
  if rossh_server_import_list.all (fun n => rossh_common_module_names.contains n) then
    match version_check rossh_version_index clientVersion with
    | some (frame, code) => .ranMain [frame] (some code)
    | none => .ranMain [] none
  else .importError

end RoSSH

section BasicLemmas

namespace RoSSH

theorem length_ctlseq_end : ctlseq_end.length = 7 := rfl

theorem length_ctlseq_special : ctlseq_special.length = 19 := rfl

theorem ctlseq_end_ne_nil : ctlseq_end ≠ [] := by decide

/-- `isPrefixOf` agrees with the `take`-characterisation of list prefixes. -/
theorem isPrefixOf_take : ∀ (p l : List Nat), p.isPrefixOf l = true ↔ l.take p.length = p
  | [], l => by simp
  | a :: p, [] => by simp
  | a :: p, b :: l => by
    rw [List.isPrefixOf_cons₂]
    simp only [Bool.and_eq_true, beq_iff_eq, List.length_cons, List.take_succ_cons,
      List.cons.injEq]
    constructor
    · rintro ⟨h1, h2⟩
      exact ⟨h1.symm, (isPrefixOf_take p l).mp h2⟩
    · rintro ⟨h1, h2⟩
      exact ⟨h1.symm, (isPrefixOf_take p l).mpr h2⟩

theorem isPrefixOf_length_le {p l : List Nat} (h : p.isPrefixOf l = true) :
    p.length ≤ l.length := by
  rw [isPrefixOf_take] at h
  have := congrArg List.length h
  simp only [List.length_take] at this
  omega

theorem isPrefixOf_append_self (p t : List Nat) : p.isPrefixOf (p ++ t) = true := by
  rw [isPrefixOf_take, List.take_left]

theorem isPrefixOf_of_append_le {p u v : List Nat} (h : p.isPrefixOf (u ++ v) = true)
    (hle : p.length ≤ u.length) : p.isPrefixOf u = true := by
  rw [isPrefixOf_take] at h ⊢
  rwa [List.take_append_of_le_length hle] at h

theorem isPrefixOf_append_of {p u : List Nat} (v : List Nat)
    (h : p.isPrefixOf u = true) : p.isPrefixOf (u ++ v) = true := by
  rw [isPrefixOf_take] at h ⊢
  rw [List.take_append_of_le_length (isPrefixOf_length_le ((isPrefixOf_take p u).mpr h))]
  exact h

theorem isPrefixOf_of_take {p u : List Nat} {k : Nat}
    (h : p.isPrefixOf (u.take k) = true) : p.isPrefixOf u = true := by
  have hlen : p.length ≤ k := by
    have := isPrefixOf_length_le h
    simp only [List.length_take] at this
    omega
  rw [isPrefixOf_take] at h ⊢
  rw [List.take_take, Nat.min_eq_left hlen] at h
  exact h

theorem findAux_eq_none (pat : List Nat) : ∀ (l : List Nat) (i : Nat),
    findAux pat l i = none ↔ ∀ m, pat.isPrefixOf (l.drop m) = false
  | [], i => by
    by_cases hp : pat.isPrefixOf [] = true
    · simp [findAux, hp]
    · simp only [Bool.not_eq_true] at hp
      simp [findAux, hp]
  | a :: t, i => by
    by_cases hp : pat.isPrefixOf (a :: t) = true
    · simp only [findAux, hp, if_true]
      constructor
      · intro h; exact absurd h (by simp)
      · intro h
        have := h 0
        rw [List.drop_zero, hp] at this
        exact absurd this (by simp)
    · simp only [Bool.not_eq_true] at hp
      rw [findAux, if_neg (by simp [hp]), findAux_eq_none pat t (i + 1)]
      constructor
      · intro h m
        cases m with
        | zero => simpa using hp
        | succ m => simpa [List.drop_succ_cons] using h m
      · intro h m
        have := h (m + 1)
        simpa [List.drop_succ_cons] using this

theorem findAux_eq_some (pat : List Nat) : ∀ (l : List Nat) (i j : Nat),
    findAux pat l i = some j ↔
      ∃ k, j = i + k ∧ pat.isPrefixOf (l.drop k) = true ∧
        ∀ m < k, pat.isPrefixOf (l.drop m) = false
  | [], i, j => by
    by_cases hp : pat.isPrefixOf [] = true
    · simp only [findAux, hp, if_true, Option.some.injEq]
      constructor
      · rintro rfl
        exact ⟨0, by simp [hp]⟩
      · rintro ⟨k, rfl, _, hmin⟩
        rcases Nat.eq_zero_or_pos k with rfl | hk
        · simp
        · have := hmin 0 hk
          rw [List.drop_nil] at this
          rw [this] at hp
          exact absurd hp (by simp)
    · simp only [Bool.not_eq_true] at hp
      simp only [findAux, hp, Bool.false_eq_true, if_false]
      constructor
      · intro h; exact absurd h (by simp)
      · rintro ⟨k, rfl, hk, _⟩
        rw [List.drop_nil, hp] at hk
        exact absurd hk (by simp)
  | a :: t, i, j => by
    by_cases hp : pat.isPrefixOf (a :: t) = true
    · simp only [findAux, hp, if_true, Option.some.injEq]
      constructor
      · rintro rfl
        exact ⟨0, by simp [hp]⟩
      · rintro ⟨k, rfl, _, hmin⟩
        rcases Nat.eq_zero_or_pos k with rfl | hk
        · simp
        · have := hmin 0 hk
          rw [List.drop_zero] at this
          rw [this] at hp
          exact absurd hp (by simp)
    · simp only [Bool.not_eq_true] at hp
      rw [findAux, if_neg (by simp [hp]), findAux_eq_some pat t (i + 1) j]
      constructor
      · rintro ⟨k, rfl, hk, hmin⟩
        refine ⟨k + 1, by omega, by simpa [List.drop_succ_cons] using hk, ?_⟩
        intro m hm
        cases m with
        | zero => simpa using hp
        | succ m => simpa [List.drop_succ_cons] using hmin m (by omega)
      · rintro ⟨k, rfl, hk, hmin⟩
        cases k with
        | zero =>
          rw [List.drop_zero] at hk
          rw [hk] at hp
          exact absurd hp (by simp)
        | succ k =>
          refine ⟨k, by omega, by simpa [List.drop_succ_cons] using hk, ?_⟩
          intro m hm
          simpa [List.drop_succ_cons] using hmin (m + 1) (by omega)

theorem bytesFind_eq_none {data pat : List Nat} :
    bytesFind data pat = none ↔ ∀ m, pat.isPrefixOf (data.drop m) = false := by
  rw [bytesFind, findAux_eq_none]

theorem bytesFind_eq_some {data pat : List Nat} {j : Nat} :
    bytesFind data pat = some j ↔
      pat.isPrefixOf (data.drop j) = true ∧ ∀ m < j, pat.isPrefixOf (data.drop m) = false := by
  rw [bytesFind, findAux_eq_some]
  constructor
  · rintro ⟨k, rfl, hk, hmin⟩
    rw [Nat.zero_add]
    exact ⟨hk, hmin⟩
  · rintro ⟨hj, hmin⟩
    exact ⟨j, by omega, hj, hmin⟩

theorem bytesFind_none_iff {data pat : List Nat} :
    bytesFind data pat = none ↔ ¬ occurs pat data := by
  rw [bytesFind_eq_none, occurs]
  constructor
  · rintro h ⟨m, hm⟩
    rw [h m] at hm
    exact absurd hm (by simp)
  · intro h m
    by_contra hc
    simp only [Bool.not_eq_false] at hc
    exact h ⟨m, hc⟩

theorem occurs_iff_parts {pat l : List Nat} :
    occurs pat l ↔ ∃ s t, l = s ++ (pat ++ t) := by
  constructor
  · rintro ⟨m, hm⟩
    rw [isPrefixOf_take] at hm
    refine ⟨l.take m, l.drop (m + pat.length), ?_⟩
    conv_lhs => rw [← List.take_append_drop m l]
    congr 1
    conv_lhs => rw [← List.take_append_drop pat.length (l.drop m)]
    rw [hm, List.drop_drop]
  · rintro ⟨s, t, rfl⟩
    refine ⟨s.length, ?_⟩
    rw [List.drop_left]
    exact isPrefixOf_append_self pat t

end RoSSH

end BasicLemmas

section MarkerLemmas

namespace RoSSH

theorem bytesFind_append_self (b t : List Nat) : bytesFind (b ++ t) b = some 0 := by
  rw [bytesFind_eq_some]
  refine ⟨?_, fun m hm => absurd hm (Nat.not_lt_zero m)⟩
  rw [List.drop_zero]
  exact isPrefixOf_append_self b t

/-- The first occurrence of the end marker in `payload ++ marker ++ rest` is
exactly at the end of the payload, provided the payload itself contains no
marker.  This uses that `'ECrossh'` cannot overlap a shifted copy of itself
(it has no non-trivial border). -/
theorem bytesFind_append_end (X rest : List Nat) (h : ¬ occurs ctlseq_end X) :
    bytesFind (X ++ (ctlseq_end ++ rest)) ctlseq_end = some X.length := by
  rw [bytesFind_eq_some]
  constructor
  · rw [List.drop_left]
    exact isPrefixOf_append_self ctlseq_end rest
  · intro m hm
    by_contra hc
    simp only [Bool.not_eq_false] at hc
    rw [List.drop_append_of_le_length (by omega)] at hc
    by_cases hd : 7 ≤ (X.drop m).length
    · exact h ⟨m, isPrefixOf_of_append_le hc (by rw [length_ctlseq_end]; omega)⟩
    · push_neg at hd
      have hd1 : 1 ≤ (X.drop m).length := by
        simp only [List.length_drop]
        omega
      rw [isPrefixOf_take, length_ctlseq_end, List.take_append_eq_append_take,
        List.take_of_length_le (by omega),
        List.take_append_of_le_length (by rw [length_ctlseq_end]; omega)] at hc
      have hdrop := congrArg (List.drop (X.drop m).length) hc
      rw [List.drop_left] at hdrop
      have hcases : (X.drop m).length = 1 ∨ (X.drop m).length = 2 ∨ (X.drop m).length = 3 ∨
          (X.drop m).length = 4 ∨ (X.drop m).length = 5 ∨ (X.drop m).length = 6 := by omega
      rcases hcases with h1 | h1 | h1 | h1 | h1 | h1 <;> rw [h1] at hdrop <;>
        revert hdrop <;> decide

end RoSSH

end MarkerLemmas

section TakeRightLemmas

namespace RoSSH

theorem length_takeRight (n : Nat) (l : List Nat) :
    (takeRight n l).length = min n l.length := by
  simp only [takeRight, List.length_drop]
  omega

theorem takeRight_takeRight (k n : Nat) (l : List Nat) :
    takeRight k (takeRight n l) = takeRight (min k n) l := by
  simp only [takeRight, List.drop_drop, List.length_drop]
  congr 1
  omega

theorem takeRight_append_of_le {n : Nat} {x c : List Nat} (h : n ≤ c.length) :
    takeRight n (x ++ c) = takeRight n c := by
  simp only [takeRight, List.length_append, List.drop_append_eq_append_drop]
  rw [List.drop_eq_nil_of_le (by omega)]
  simp only [List.nil_append]
  congr 1
  omega

theorem takeRight_append_of_gt {n : Nat} {x c : List Nat} (h : c.length < n) :
    takeRight n (x ++ c) = takeRight (n - c.length) x ++ c := by
  simp only [takeRight, List.length_append, List.drop_append_eq_append_drop]
  have h1 : x.length + c.length - n = x.length - (n - c.length) := by omega
  have h2 : x.length - (n - c.length) - x.length = 0 := by omega
  rw [h1, h2, List.drop_zero]

theorem takeRight_append_takeRight (n : Nat) (a c : List Nat) :
    takeRight n (takeRight n a ++ c) = takeRight n (a ++ c) := by
  by_cases h : n ≤ c.length
  · rw [takeRight_append_of_le h, takeRight_append_of_le h]
  · push_neg at h
    rw [takeRight_append_of_gt h, takeRight_append_of_gt h, takeRight_takeRight]
    congr 2
    omega

/-- Split a list into everything before its `takeRight` suffix. -/
theorem take_append_takeRight (n : Nat) (l : List Nat) :
    l.take (l.length - n) ++ takeRight n l = l :=
  List.take_append_drop _ _

end RoSSH

end TakeRightLemmas

section WindowLemmas

namespace RoSSH

theorem ne_nil_of_not_occurs {P acc : List Nat} (h : ¬ occurs P acc) : P ≠ [] := by
  rintro rfl
  exact h ⟨0, by simp⟩

theorem isPrefixOf_drop_add_le {P l : List Nat} {p : Nat}
    (h : P.isPrefixOf (l.drop p) = true) (hne : P ≠ []) : p + P.length ≤ l.length := by
  have h1 := isPrefixOf_length_le h
  simp only [List.length_drop] at h1
  have h2 : 0 < P.length := List.length_pos.mpr hne
  omega

theorem occ_shift_up {P F R : List Nat} {m : Nat} (h : P.isPrefixOf (R.drop m) = true) :
    P.isPrefixOf ((F ++ R).drop (F.length + m)) = true := by
  rw [List.drop_append]
  exact h

theorem occ_shift_down {P F R : List Nat} {m : Nat} (hm : F.length ≤ m)
    (h : P.isPrefixOf ((F ++ R).drop m) = true) :
    P.isPrefixOf (R.drop (m - F.length)) = true := by
  rw [List.drop_append_eq_append_drop, List.drop_eq_nil_of_le hm, List.nil_append] at h
  exact h

theorem occ_within_left {P u v : List Nat} {m : Nat} (hm : m + P.length ≤ u.length)
    (h : P.isPrefixOf ((u ++ v).drop m) = true) : P.isPrefixOf (u.drop m) = true := by
  rw [List.drop_append_of_le_length (by omega)] at h
  exact isPrefixOf_of_append_le h (by simp only [List.length_drop]; omega)

theorem length_front (K : Nat) (acc : List Nat) :
    (acc.take (acc.length - K)).length = acc.length - K := by
  simp only [List.length_take]
  omega

/-- The window `tail_buf[-(|P|-1):] + chunk` misses `P` exactly when `P` does
not occur in `previous stream + chunk` at all, given that `P` did not occur in
the previous stream alone.  (Any occurrence ending inside the chunk starts at
most `|P| - 1` bytes before the chunk, hence inside the retained tail.) -/
theorem window_none_iff {P acc : List Nat} (c : List Nat) (hnocc : ¬ occurs P acc) :
    bytesFind (takeRight (P.length - 1) acc ++ c) P = none ↔ ¬ occurs P (acc ++ c) := by
  have hPne : P ≠ [] := ne_nil_of_not_occurs hnocc
  have hPpos : 0 < P.length := List.length_pos.mpr hPne
  set F := acc.take (acc.length - (P.length - 1)) with hF
  set T := takeRight (P.length - 1) acc with hT
  have hFT : F ++ T = acc := take_append_takeRight _ _
  have hFlen : F.length = acc.length - (P.length - 1) := length_front _ _
  have hsplit : acc ++ c = F ++ (T ++ c) := by
    rw [← hFT, List.append_assoc]
  constructor
  · intro hnone hocc
    rw [bytesFind_eq_none] at hnone
    obtain ⟨m, hm⟩ := hocc
    by_cases hcase : m + P.length ≤ acc.length
    · exact hnocc ⟨m, occ_within_left hcase hm⟩
    · push_neg at hcase
      have hmF : F.length ≤ m := by omega
      rw [hsplit] at hm
      have hm' := occ_shift_down hmF hm
      have hfalse := hnone (m - F.length)
      rw [hm'] at hfalse
      exact absurd hfalse (by simp)
  · intro hnocc2
    rw [bytesFind_eq_none]
    intro m
    by_contra hc
    simp only [Bool.not_eq_false] at hc
    refine hnocc2 ⟨F.length + m, ?_⟩
    rw [hsplit]
    exact occ_shift_up hc

/-- A window hit at offset `p` is the first occurrence of `P` in the whole
stream `acc ++ (chunk ++ rest of stream)`, at logical offset
`|acc| - (|P| - 1) + p`. -/
theorem window_some_spec {P acc : List Nat} (c J : List Nat) (hnocc : ¬ occurs P acc)
    {p : Nat} (hfind : bytesFind (takeRight (P.length - 1) acc ++ c) P = some p) :
    bytesFind (acc ++ (c ++ J)) P = some ((acc.length - (P.length - 1)) + p) := by
  have hPne : P ≠ [] := ne_nil_of_not_occurs hnocc
  have hPpos : 0 < P.length := List.length_pos.mpr hPne
  rw [bytesFind_eq_some] at hfind
  obtain ⟨hpre, hmin⟩ := hfind
  set F := acc.take (acc.length - (P.length - 1)) with hF
  set T := takeRight (P.length - 1) acc with hT
  have hFT : F ++ T = acc := take_append_takeRight _ _
  have hFlen : F.length = acc.length - (P.length - 1) := length_front _ _
  have hTlen : T.length = min (P.length - 1) acc.length := length_takeRight _ _
  have hsplit : acc ++ (c ++ J) = F ++ ((T ++ c) ++ J) := by
    rw [← hFT, List.append_assoc, List.append_assoc]
  have hwlen : p + P.length ≤ (T ++ c).length := isPrefixOf_drop_add_le hpre hPne
  rw [bytesFind_eq_some]
  constructor
  · have hidx : acc.length - (P.length - 1) + p = F.length + p := by omega
    rw [hsplit, hidx]
    apply occ_shift_up
    rw [List.drop_append_of_le_length (by omega)]
    exact isPrefixOf_append_of J hpre
  · intro m hm
    by_contra hc
    simp only [Bool.not_eq_false] at hc
    by_cases hcase : m + P.length ≤ acc.length
    · exact hnocc ⟨m, occ_within_left hcase hc⟩
    · push_neg at hcase
      have hmF : F.length ≤ m := by omega
      rw [hsplit] at hc
      have hc' := occ_shift_down hmF hc
      have hm' : m - F.length < p := by omega
      have hc'' := occ_within_left (v := J) (by omega) hc'
      have hfalse := hmin (m - F.length) hm'
      rw [hc''] at hfalse
      exact absurd hfalse (by simp)

end RoSSH

end WindowLemmas

section FeedLemmas

namespace RoSSH

theorem take_concat_mid (A c J : List Nat) (k : Nat) (hk : k ≤ c.length) :
    (A ++ (c ++ J)).take (A.length + k) = A ++ c.take k := by
  rw [List.take_append, List.take_append_of_le_length hk]

theorem drop_concat_mid (A c J : List Nat) (k : Nat) (hk : k ≤ c.length) :
    (A ++ (c ++ J)).drop (A.length + k) = c.drop k ++ J := by
  rw [List.drop_append, List.drop_append_of_le_length hk]

/-- What `find_with_tail` returns as `before`, prefixed with the already
forwarded chunks, equals a `take` of the whole stream that overshoots the
match position by `thl - p` bytes (0 when the match does not reach back into
the tail buffer). -/
theorem pre_take_eq {P acc c : List Nat} (J : List Nat) {p : Nat}
    (hwlen : p + P.length ≤ (takeRight (P.length - 1) acc ++ c).length) :
    acc ++ c.take (p - min (P.length - 1) acc.length) =
      (acc ++ (c ++ J)).take ((acc.length - (P.length - 1)) + p +
        (min (P.length - 1) acc.length - p)) := by
  simp only [List.length_append, length_takeRight] at hwlen
  have hk : p - min (P.length - 1) acc.length ≤ c.length := by omega
  have hidx : (acc.length - (P.length - 1)) + p + (min (P.length - 1) acc.length - p) =
      acc.length + (p - min (P.length - 1) acc.length) := by omega
  rw [hidx, take_concat_mid acc c J _ hk]

/-- What `find_with_tail` returns as `after`, extended with the rest of the
stream, equals the whole stream after the match. -/
theorem after_drop_eq {P acc c : List Nat} (J : List Nat) {p : Nat}
    (hwlen : p + P.length ≤ (takeRight (P.length - 1) acc ++ c).length) :
    c.drop (p + P.length - min (P.length - 1) acc.length) ++ J =
      (acc ++ (c ++ J)).drop ((acc.length - (P.length - 1)) + p + P.length) := by
  simp only [List.length_append, length_takeRight] at hwlen
  have hk : p + P.length - min (P.length - 1) acc.length ≤ c.length := by omega
  have hidx : (acc.length - (P.length - 1)) + p + P.length =
      acc.length + (p + P.length - min (P.length - 1) acc.length) := by omega
  rw [hidx, drop_concat_mid acc c J _ hk]

/-- Invariant version of the chunked-feeding theorem: starting from the state
reached after appending (and fully forwarding) a pattern-free stream `acc`,
`feedChunks` returns `none` exactly when the pattern occurs nowhere in the
whole stream, and on a hit it reports the first occurrence `q` of the pattern
in the whole stream, a forwarded output that overshoots `(stream).take q` by
at most `|P| - 1` bytes, and an `after` side that resumes exactly at
`q + |P|`. -/
theorem feed_spec (chunks : List (List Nat)) : ∀ (acc P : List Nat),
    2 ≤ P.length → P.length < 100 → ¬ occurs P acc →
    (feedChunks ⟨takeRight 100 acc⟩ P acc chunks = none ↔
      ¬ occurs P (acc ++ chunks.flatten)) ∧
    (∀ pre a rest, feedChunks ⟨takeRight 100 acc⟩ P acc chunks = some (pre, a, rest) →
      ∃ q, bytesFind (acc ++ chunks.flatten) P = some q ∧
        (∃ s, s ≤ P.length - 1 ∧ pre = (acc ++ chunks.flatten).take (q + s)) ∧
        a ++ rest.flatten = (acc ++ chunks.flatten).drop (q + P.length)) := by
  induction chunks with
  | nil =>
    intro acc P h2 h100 hnocc
    constructor
    · constructor
      · intro _
        simpa using hnocc
      · intro _
        rfl
    · intro pre a rest h
      exact absurd h (by simp [feedChunks])
  | cons c cs ih =>
    intro acc P h2 h100 hnocc
    have hPpos : 0 < P.length := by omega
    have htail : takeRight (P.length - 1) (takeRight 100 acc) = takeRight (P.length - 1) acc := by
      rw [takeRight_takeRight]
      congr 1
      omega
    have hthl : min (P.length - 1) (takeRight 100 acc).length =
        min (P.length - 1) acc.length := by
      rw [length_takeRight]
      omega
    rcases hW : bytesFind (takeRight (P.length - 1) acc ++ c) P with _ | p
    · -- no hit in this chunk's window
      have hnocc' : ¬ occurs P (acc ++ c) := (window_none_iff c hnocc).mp hW
      have hstep : feedChunks ⟨takeRight 100 acc⟩ P acc (c :: cs) =
          feedChunks ⟨takeRight 100 (acc ++ c)⟩ P (acc ++ c) cs := by
        show (match (⟨takeRight 100 acc⟩ : PatternFinder).find_with_tail c P with
          | some (b, a) => some (acc ++ b, a, cs)
          | none => feedChunks ((⟨takeRight 100 acc⟩ : PatternFinder).append c) P (acc ++ c) cs) =
          feedChunks ⟨takeRight 100 (acc ++ c)⟩ P (acc ++ c) cs
        rw [PatternFinder.find_with_tail]
        simp only [htail, hW]
        rw [PatternFinder.append]
        simp only [BUFLEN]
        rw [takeRight_append_takeRight]
      obtain ⟨ihnone, ihsome⟩ := ih (acc ++ c) P h2 h100 hnocc'
      have hflat : (acc ++ c) ++ cs.flatten = acc ++ (c :: cs).flatten := by
        rw [List.flatten_cons, List.append_assoc]
      constructor
      · rw [hstep, ihnone, hflat]
      · intro pre a rest h
        rw [hstep] at h
        obtain ⟨q, hq, hs, ha⟩ := ihsome pre a rest h
        rw [hflat] at hq hs ha
        exact ⟨q, hq, hs, ha⟩
    · -- hit in this chunk's window
      have hq := window_some_spec c cs.flatten hnocc hW
      have hocc : occurs P (acc ++ (c ++ cs.flatten)) := by
        obtain ⟨hpre, -⟩ := bytesFind_eq_some.mp hq
        exact ⟨_, hpre⟩
      have hwlen : p + P.length ≤ (takeRight (P.length - 1) acc ++ c).length := by
        obtain ⟨hpre, -⟩ := bytesFind_eq_some.mp hW
        exact isPrefixOf_drop_add_le hpre (ne_nil_of_not_occurs hnocc)
      have hstep : feedChunks ⟨takeRight 100 acc⟩ P acc (c :: cs) =
          some (acc ++ c.take (p - min (P.length - 1) acc.length),
            c.drop (p + P.length - min (P.length - 1) acc.length), cs) := by
        show (match (⟨takeRight 100 acc⟩ : PatternFinder).find_with_tail c P with
          | some (b, a) => some (acc ++ b, a, cs)
          | none => feedChunks ((⟨takeRight 100 acc⟩ : PatternFinder).append c) P (acc ++ c) cs) =
          _
        rw [PatternFinder.find_with_tail]
        simp only [htail, hthl, hW]
      have hflat : acc ++ (c :: cs).flatten = acc ++ (c ++ cs.flatten) := by
        rw [List.flatten_cons]
      constructor
      · rw [hstep, hflat]
        constructor
        · intro h
          exact absurd h (by simp)
        · intro h
          exact absurd hocc h
      · intro pre a rest h
        rw [hstep] at h
        simp only [Option.some.injEq, Prod.mk.injEq] at h
        obtain ⟨h1, h2', h3⟩ := h
        subst h1 h2' h3
        refine ⟨(acc.length - (P.length - 1)) + p, ?_, ?_, ?_⟩
        · rw [hflat]
          exact hq
        · refine ⟨min (P.length - 1) acc.length - p, by omega, ?_⟩
          rw [hflat]
          exact pre_take_eq cs.flatten hwlen
        · rw [hflat]
          exact after_drop_eq cs.flatten hwlen

end RoSSH

end FeedLemmas

section CodecClaims

namespace RoSSH

/-- A computable check that a byte string does not contain the end marker. -/
theorem no_end_marker_of_find {X : List Nat} (h : bytesFind X ctlseq_end = none) :
    ¬ ∃ s t, X = s ++ (ctlseq_end ++ t) :=
  fun hex => (bytesFind_none_iff.mp h) (occurs_iff_parts.mpr hex)

/-- Decoding a canonically framed stream: when the data is exactly
`begin-marker ++ payload ++ ECrossh ++ rest` and the payload contains no end
marker, the decoder returns the payload and the rest. -/
theorem find_ctlseq_param_of_canonical (args : List (List Nat)) (pay rest : List Nat)
    (hocc : ¬ occurs ctlseq_end pay) :
    find_ctlseq_param (ctl_begin_of args ++ (pay ++ (ctlseq_end ++ rest))) args =
      .found pay rest := by
  have hfind0 : bytesFind (ctl_begin_of args ++ (pay ++ (ctlseq_end ++ rest)))
      (ctl_begin_of args) = some 0 := bytesFind_append_self _ _
  have hdrop : (ctl_begin_of args ++ (pay ++ (ctlseq_end ++ rest))).drop
      (0 + (ctl_begin_of args).length) = pay ++ (ctlseq_end ++ rest) := by
    rw [Nat.zero_add, List.drop_left]
  have hend : bytesFind (pay ++ (ctlseq_end ++ rest)) ctlseq_end = some pay.length :=
    bytesFind_append_end pay rest hocc
  rw [find_ctlseq_param, hfind0]
  dsimp only
  rw [hdrop, hend]
  dsimp only
  rw [List.take_append_of_le_length (Nat.le_refl _), List.take_of_length_le (Nat.le_refl _),
    List.drop_append, List.drop_left]

/-- C2: encode-then-decode of a control frame round-trips: for every opcode
`O` and payload `X` not containing the byte sequence `ECrossh`,
`find_ctlseq_param(build_ctlseq(O, X), O)` returns `(X, b'')`. -/
theorem c2_encode_decode_roundtrip (O X : List Nat)
    (h : ¬ ∃ s t, X = s ++ (ctlseq_end ++ t)) :
    find_ctlseq_param (build_ctlseq [O, X]) [O] = .found X [] := by
  have hocc : ¬ occurs ctlseq_end X := fun hc => h (occurs_iff_parts.mp hc)
  have hdata : build_ctlseq [O, X] = ctl_begin_of [O] ++ (X ++ (ctlseq_end ++ [])) := by
    simp [build_ctlseq, ctl_begin_of]
  rw [hdata, find_ctlseq_param_of_canonical [O] X [] hocc]

/-- C2 witness: a concrete round-trip through the codec. -/
theorem c2_witness :
    find_ctlseq_param (build_ctlseq [[87, 83], [1, 2, 3]]) [[87, 83]] =
      .found [1, 2, 3] [] :=
  c2_encode_decode_roundtrip [87, 83] [1, 2, 3] (no_end_marker_of_find (by decide))

/-- C3 counterexample: the magic tag has 19 bytes, not 20; a frame contains a
single `ECrossh` (so an empty-payload frame has no two adjacent end markers);
and a `WS` frame with an 8-byte payload is 38 bytes long, while the claimed
wire form `BC ++ magic(20) ++ opcode ++ ECrossh ++ payload ++ ECrossh` would
make it 46 bytes long. -/
theorem c3_counterexample :
    ctlseq_special.length ≠ 20 ∧
    bytesFind (build_ctlseq [[87, 83]]) (ctlseq_end ++ ctlseq_end) = none ∧
    (build_ctlseq [[87, 83], [1, 2, 3, 4, 5, 6, 7, 8]]).length ≠ 2 + 20 + 2 + 7 + 8 + 7 := by
  decide

/-- C3 (amended): every encoded frame has the wire form
`'BC' ++ magic ++ opcode ++ payload ++ 'ECrossh'` where the magic is the fixed
19-byte tag and a single end marker closes the frame; for an empty payload
the opcode bytes directly abut the closing `ECrossh`. -/
theorem c3_wire_format (opcode payload : List Nat) :
    build_ctlseq [opcode, payload] =
      ctlseq_begin ++ (ctlseq_special ++ (opcode ++ (payload ++ ctlseq_end))) ∧
    ctlseq_special.length = 19 ∧
    build_ctlseq [opcode] = ctlseq_begin ++ (ctlseq_special ++ (opcode ++ ctlseq_end)) := by
  refine ⟨?_, rfl, ?_⟩ <;> simp [build_ctlseq, ctl_begin_of]

/-- C4: when the bytes delivered to `write_to_master_fd` start with a
(canonical) `WS` control frame, the window size is set from the frame's
payload, the frame is consumed, and exactly the bytes outside the frame are
forwarded to the master, in order. -/
theorem c4_ws_frame_consumed (ws rest : List Nat)
    (h : ¬ ∃ s t, ws = s ++ (ctlseq_end ++ t)) :
    write_to_master_fd (build_ctlseq [wsOpcode, ws] ++ rest) = .ok (some ws, rest) := by
  have hocc : ¬ occurs ctlseq_end ws := fun hc => h (occurs_iff_parts.mp hc)
  have hdata : build_ctlseq [wsOpcode, ws] ++ rest =
      ctl_begin_of [wsOpcode] ++ (ws ++ (ctlseq_end ++ rest)) := by
    simp [build_ctlseq, ctl_begin_of]
  rw [write_to_master_fd, hdata, find_ctlseq_param_of_canonical [wsOpcode] ws rest hocc]

/-- C4 witness: an 8-byte packed winsize followed by user input. -/
theorem c4_witness :
    write_to_master_fd (build_ctlseq [wsOpcode, [0, 24, 0, 80, 0, 0, 0, 0]] ++ [104, 105]) =
      .ok (some [0, 24, 0, 80, 0, 0, 0, 0], [104, 105]) :=
  c4_ws_frame_consumed [0, 24, 0, 80, 0, 0, 0, 0] [104, 105]
    (no_end_marker_of_find (by decide))

end RoSSH

end CodecClaims

section DecoderTrichotomy

namespace RoSSH

/-- C7: the frame decoder never yields a partial payload.  For every input and
opcode list:
`(None, None)` is returned exactly when the opening marker (begin tag plus
opcode bytes) does not occur in the data; `RuntimeError` is raised exactly
when the opening marker occurs but no closing `ECrossh` follows any occurrence
of it; and when a payload is returned, the data contains
`marker ++ payload ++ ECrossh ++ remainder` and the payload itself contains no
end marker (it is complete). -/
theorem c7_decoder_trichotomy (data : List Nat) (args : List (List Nat)) :
    (find_ctlseq_param data args = .noMatch ↔ ¬ occurs (ctl_begin_of args) data) ∧
    (find_ctlseq_param data args = .incomplete ↔
      occurs (ctl_begin_of args) data ∧
        ¬ ∃ u v, data = u ++ (ctl_begin_of args ++ v) ∧ occurs ctlseq_end v) ∧
    (∀ p r, find_ctlseq_param data args = .found p r →
      (∃ u, data = u ++ (ctl_begin_of args ++ (p ++ (ctlseq_end ++ r)))) ∧
        ¬ occurs ctlseq_end p) := by
  rcases hb : bytesFind data (ctl_begin_of args) with _ | st
  · -- opening marker absent
    have hres : find_ctlseq_param data args = .noMatch := by
      rw [find_ctlseq_param, hb]
    have hnocc : ¬ occurs (ctl_begin_of args) data := bytesFind_none_iff.mp hb
    refine ⟨iff_of_true hres hnocc, ?_, ?_⟩
    · refine iff_of_false (by rw [hres]; simp) ?_
      rintro ⟨ho, -⟩
      exact hnocc ho
    · intro p r hpr
      rw [hres] at hpr
      exact absurd hpr (by simp)
  · -- opening marker present, first occurrence at st
    obtain ⟨hpre, hmin⟩ := bytesFind_eq_some.mp hb
    have hoccb : occurs (ctl_begin_of args) data := ⟨st, hpre⟩
    have hdecomp : data = data.take st ++
        (ctl_begin_of args ++ data.drop (st + (ctl_begin_of args).length)) := by
      conv_lhs => rw [← List.take_append_drop st data]
      congr 1
      conv_lhs => rw [← List.take_append_drop (ctl_begin_of args).length (data.drop st)]
      rw [(isPrefixOf_take _ _).mp hpre, List.drop_drop]
    rcases he : bytesFind (data.drop (st + (ctl_begin_of args).length)) ctlseq_end with _ | ed
    · -- no closing marker after the opening marker
      have hres : find_ctlseq_param data args = .incomplete := by
        rw [find_ctlseq_param, hb]
        dsimp only
        rw [he]
      refine ⟨iff_of_false (by rw [hres]; simp) (fun hno => hno hoccb), ?_, ?_⟩
      · refine iff_of_true hres ⟨hoccb, ?_⟩
        rintro ⟨u, v, hdv, m, hm⟩
        have hule : st ≤ u.length := by
          by_contra hlt
          push_neg at hlt
          have hfalse := hmin u.length hlt
          rw [hdv, List.drop_left] at hfalse
          rw [isPrefixOf_append_self] at hfalse
          exact absurd hfalse (by simp)
        have hv : v = (data.drop (st + (ctl_begin_of args).length)).drop (u.length - st) := by
          rw [List.drop_drop]
          have hidx : st + (ctl_begin_of args).length + (u.length - st) =
              u.length + (ctl_begin_of args).length := by omega
          rw [hidx, hdv, List.drop_append, List.drop_left]
        have hoccA : occurs ctlseq_end (data.drop (st + (ctl_begin_of args).length)) := by
          refine ⟨(u.length - st) + m, ?_⟩
          rw [← List.drop_drop, ← hv]
          exact hm
        exact absurd hoccA (bytesFind_none_iff.mp he)
      · intro p r hpr
        rw [hres] at hpr
        exact absurd hpr (by simp)
    · -- closing marker found at ed
      obtain ⟨hepre, hemin⟩ := bytesFind_eq_some.mp he
      have hres : find_ctlseq_param data args =
          .found ((data.drop (st + (ctl_begin_of args).length)).take ed)
            ((data.drop (st + (ctl_begin_of args).length)).drop (ed + ctlseq_end.length)) := by
        rw [find_ctlseq_param, hb]
        dsimp only
        rw [he]
      have hAdecomp : data.drop (st + (ctl_begin_of args).length) =
          (data.drop (st + (ctl_begin_of args).length)).take ed ++
            (ctlseq_end ++ (data.drop (st + (ctl_begin_of args).length)).drop
              (ed + ctlseq_end.length)) := by
        conv_lhs =>
          rw [← List.take_append_drop ed (data.drop (st + (ctl_begin_of args).length))]
        congr 1
        conv_lhs =>
          rw [← List.take_append_drop ctlseq_end.length
            ((data.drop (st + (ctl_begin_of args).length)).drop ed)]
        rw [(isPrefixOf_take _ _).mp hepre, List.drop_drop]
      have hoccE : occurs ctlseq_end (data.drop (st + (ctl_begin_of args).length)) := ⟨ed, hepre⟩
      refine ⟨iff_of_false (by rw [hres]; simp) (fun hno => hno hoccb), ?_, ?_⟩
      · refine iff_of_false (by rw [hres]; simp) ?_
        rintro ⟨-, hnoex⟩
        exact hnoex ⟨data.take st, data.drop (st + (ctl_begin_of args).length), hdecomp, hoccE⟩
      · intro p r hpr
        rw [hres] at hpr
        injection hpr with hp hr
        constructor
        · refine ⟨data.take st, ?_⟩
          rw [← hp, ← hr]
          conv_lhs => rw [hdecomp, hAdecomp]
        · rintro ⟨m, hm⟩
          rw [← hp] at hm
          by_cases hmed : m < ed
          · have hm' : ctlseq_end.isPrefixOf
                ((data.drop (st + (ctl_begin_of args).length)).drop m) = true := by
              rw [List.drop_take] at hm
              exact isPrefixOf_of_take hm
            have hfalse := hemin m hmed
            rw [hm'] at hfalse
            exact absurd hfalse (by simp)
          · push_neg at hmed
            rw [List.drop_eq_nil_of_le (by simp only [List.length_take]; omega)] at hm
            exact absurd hm (by decide)

end RoSSH

end DecoderTrichotomy

section SplitClaims

namespace RoSSH

/-- C7 witness: decoding a concrete complete frame yields a payload that is a
complete, marker-free slice of the input. -/
theorem c7_witness :
    (∃ u, build_ctlseq [[80], [5, 6]] ++ [9] =
      u ++ (ctl_begin_of [[80]] ++ ([5, 6] ++ (ctlseq_end ++ [9])))) ∧
      ¬ occurs ctlseq_end [5, 6] :=
  (c7_decoder_trichotomy (build_ctlseq [[80], [5, 6]] ++ [9]) [[80]]).2.2 [5, 6] [9]
    (by decide)

/-- C1 counterexample: for the pattern `'ab'` and the chunk decomposition
`['xa', 'b']` of `'xab'`, the chunked protocol forwards/reports
`before = 'xa'` (the pattern head `'a'` was already forwarded with the first
chunk), while the single-chunk call reports `before = 'x'`: the
`before`/`after` decompositions differ, refuting the claim as stated. -/
theorem c1_counterexample :
    feedChunks ⟨[]⟩ [97, 98] [] [[120, 97], [98]] = some ([120, 97], [], []) ∧
    PatternFinder.find_with_tail ⟨[]⟩ [120, 97, 98] [97, 98] = some ([120], []) ∧
    ([120, 97] : List Nat) ≠ [120] := by decide

/-- C1 (amended): for `2 ≤ |P| < 100` and any chunk decomposition of `D`,
feeding the chunks to a fresh `PatternFinder` reports a match if and only if
feeding `D` as a single chunk does, and it is the same (first) occurrence:
the chunked `after` extended by the unconsumed chunks equals the single-chunk
`after` (same logical offset of consumption), while the chunked `before`
(with the previously forwarded chunks prepended) may exceed the single-chunk
`before` by the first `s ≤ |P| - 1` bytes of the pattern itself — exactly the
pattern-head bytes that straddled a chunk boundary and were already forwarded. -/
theorem c1_split_insensitive_amended (P : List Nat) (chunks : List (List Nat))
    (h2 : 2 ≤ P.length) (h100 : P.length < 100) :
    (feedChunks ⟨[]⟩ P [] chunks = none ↔
      PatternFinder.find_with_tail ⟨[]⟩ chunks.flatten P = none) ∧
    (∀ pre a rest, feedChunks ⟨[]⟩ P [] chunks = some (pre, a, rest) →
      ∃ before after s, PatternFinder.find_with_tail ⟨[]⟩ chunks.flatten P =
          some (before, after) ∧
        s ≤ P.length - 1 ∧ pre = before ++ P.take s ∧ a ++ rest.flatten = after) := by
  have hnil : ¬ occurs P ([] : List Nat) := by
    rintro ⟨m, hm⟩
    rw [List.drop_nil] at hm
    have hlen := isPrefixOf_length_le hm
    simp only [List.length_nil] at hlen
    omega
  have hspec := feed_spec chunks [] P h2 h100 hnil
  rw [show takeRight 100 ([] : List Nat) = [] from rfl] at hspec
  simp only [List.nil_append] at hspec
  have hsingle : PatternFinder.find_with_tail ⟨[]⟩ chunks.flatten P =
      match bytesFind chunks.flatten P with
      | none => none
      | some q => some (chunks.flatten.take q, chunks.flatten.drop (q + P.length)) := by
    rw [PatternFinder.find_with_tail]
    simp only [takeRight, List.length_nil, List.drop_nil, List.nil_append, Nat.min_zero,
      Nat.sub_zero]
  constructor
  · rw [hspec.1, hsingle, ← bytesFind_none_iff]
    rcases bytesFind chunks.flatten P with _ | q
    · simp
    · simp
  · intro pre a rest h
    obtain ⟨q, hq, ⟨s, hs, hpre⟩, ha⟩ := hspec.2 pre a rest h
    refine ⟨chunks.flatten.take q, chunks.flatten.drop (q + P.length), s, ?_, hs, ?_, ha⟩
    · rw [hsingle, hq]
    · rw [hpre, List.take_add]
      congr 1
      obtain ⟨hqpre, -⟩ := bytesFind_eq_some.mp hq
      have hdq : chunks.flatten.drop q = P ++ chunks.flatten.drop (q + P.length) := by
        conv_lhs => rw [← List.take_append_drop P.length (chunks.flatten.drop q)]
        rw [(isPrefixOf_take _ _).mp hqpre, List.drop_drop]
      rw [hdq, List.take_append_of_le_length (by omega)]

/-- C1 witness: the amended theorem evaluated at the counterexample's inputs:
the chunked feed's result relates to the single-chunk result with overshoot
`s = 1` (`[120, 97] = [120] ++ [97]`). -/
theorem c1_witness :
    ∃ before after s, PatternFinder.find_with_tail ⟨[]⟩ [120, 97, 98] [97, 98] =
        some (before, after) ∧ s ≤ 1 ∧
      ([120, 97] : List Nat) = before ++ [97, 98].take s ∧
      ([] : List Nat) ++ ([] : List (List Nat)).flatten = after :=
  (c1_split_insensitive_amended [97, 98] [[120, 97], [98]] (by decide) (by decide)).2
    [120, 97] [] [] (by decide)

end RoSSH

end SplitClaims

section ControlFlowClaims

namespace RoSSH

/-- C5: in the endpoint's relay loop, after any number of data events, EOF on
the output pipe yields exactly: session directory removed, `CONN:E` emitted,
exit status 0; EOF on standard input instead yields: no directory removal, no
frame, exit status 1. -/
theorem c5_attach_eof_semantics (pre es : List AttachEvent)
    (h : ∀ e ∈ pre, e.isData = true) :
    attach_loop (pre ++ (AttachEvent.outEOF :: es)) = some ⟨true, [connE_frame], 0⟩ ∧
    attach_loop (pre ++ (AttachEvent.stdinEOF :: es)) = some ⟨false, [], 1⟩ := by
  induction pre with
  | nil => exact ⟨rfl, rfl⟩
  | cons e pre ih =>
    have he := h e (List.mem_cons_self _ _)
    have h' : ∀ x ∈ pre, x.isData = true := fun x hx => h x (List.mem_cons_of_mem _ hx)
    cases e with
    | stdinData d => simpa [attach_loop] using ih h'
    | outData d => simpa [attach_loop] using ih h'
    | stdinEOF => simp [AttachEvent.isData] at he
    | outEOF => simp [AttachEvent.isData] at he

/-- C5 witness: a concrete event sequence for each kind of EOF. -/
theorem c5_witness :
    attach_loop [.stdinData [3], .outData [4], .outEOF] = some ⟨true, [connE_frame], 0⟩ ∧
    attach_loop [.stdinData [3], .outData [4], .stdinEOF] = some ⟨false, [], 1⟩ :=
  c5_attach_eof_semantics [.stdinData [3], .outData [4]] [] (by decide)

/-- C6: the endpoint's version check emits `CONN:FL:VER:SERVER_UPDATE` and
exits non-zero when its own version is older than the client's; emits
`CONN:FL:VER:CLIENT_TOOOLD` and exits non-zero when newer; and proceeds
without emitting either frame when equal. -/
theorem c6_version_check (client : Nat) :
    (rossh_version_index < client →
      version_check rossh_version_index client = some (build_ctlseq [verServerUpdateOp], 1)) ∧
    (client < rossh_version_index →
      version_check rossh_version_index client = some (build_ctlseq [verClientToooldOp], 1)) ∧
    (client = rossh_version_index → version_check rossh_version_index client = none) ∧
    (∀ frame code, version_check rossh_version_index client = some (frame, code) →
      code ≠ 0) := by
  refine ⟨?_, ?_, ?_, ?_⟩
  · intro h
    rw [version_check, if_pos h]
  · intro h
    rw [version_check, if_neg (by omega), if_pos h]
  · intro h
    rw [version_check, if_neg (by omega), if_neg (by omega)]
  · intro frame code h
    by_cases h1 : rossh_version_index < client
    · rw [version_check, if_pos h1] at h
      simp only [Option.some.injEq, Prod.mk.injEq] at h
      obtain ⟨-, h⟩ := h
      omega
    · by_cases h2 : client < rossh_version_index
      · rw [version_check, if_neg h1, if_pos h2] at h
        simp only [Option.some.injEq, Prod.mk.injEq] at h
        obtain ⟨-, h⟩ := h
        omega
      · rw [version_check, if_neg h1, if_neg h2] at h
        exact absurd h (by simp)

/-- C6 witness: the three version relations at concrete client versions. -/
theorem c6_witness :
    version_check rossh_version_index 5 = some (build_ctlseq [verServerUpdateOp], 1) ∧
    version_check rossh_version_index 3 = some (build_ctlseq [verClientToooldOp], 1) ∧
    version_check rossh_version_index 4 = none :=
  ⟨(c6_version_check 5).1 (by decide), (c6_version_check 3).2.1 (by decide),
    (c6_version_check 4).2.2.1 (by decide)⟩

/-- C8: the orphan scan collects (in listing order) exactly the ids of the
`.orphan.<id>` files whose advisory lock can be acquired, skips ids whose
marker lock is held, and renders `' --kill ' ++ ids` (or the empty string when
there are none). -/
theorem c8_orphan_scan_spec (entries : List (List Char × Bool)) :
    orphan_scan entries =
      (entries.filter (fun e => decide (e.1.take 8 = orphanMarkerPre) && e.2)).map
        (fun e => e.1.drop 8) ∧
    (∀ id : List Char, id ∈ orphan_scan entries ↔ (orphanMarkerPre ++ id, true) ∈ entries) ∧
    (orphan_scan entries = [] → arg_orphaned_sessions entries = []) ∧
    (orphan_scan entries ≠ [] →
      arg_orphaned_sessions entries = killOption ++ spaceJoin (orphan_scan entries)) := by
  have hfilter : orphan_scan entries =
      (entries.filter (fun e => decide (e.1.take 8 = orphanMarkerPre) && e.2)).map
        (fun e => e.1.drop 8) := by
    induction entries with
    | nil => rfl
    | cons e es ih =>
      obtain ⟨fname, lockFree⟩ := e
      by_cases hp : fname.take 8 = orphanMarkerPre
      · cases lockFree
        · simp [orphan_scan, hp, List.filter_cons, ih]
        · simp [orphan_scan, hp, List.filter_cons, ih]
      · simp [orphan_scan, hp, List.filter_cons, ih]
  refine ⟨hfilter, ?_, ?_, ?_⟩
  · intro id
    rw [hfilter]
    constructor
    · intro hid
      obtain ⟨e, he, hfe⟩ := List.mem_map.mp hid
      obtain ⟨hee, hpe⟩ := List.mem_filter.mp he
      simp only [Bool.and_eq_true, decide_eq_true_eq] at hpe
      obtain ⟨hp8, hb⟩ := hpe
      have hfname : e.1 = orphanMarkerPre ++ id := by
        rw [← hfe, ← hp8]
        exact (List.take_append_drop 8 e.1).symm
      have he2 : e = (orphanMarkerPre ++ id, true) := by
        obtain ⟨f, b⟩ := e
        simp only at hfname hb
        rw [hfname, hb]
      rw [← he2]
      exact hee
    · intro hin
      refine List.mem_map.mpr ⟨(orphanMarkerPre ++ id, true), List.mem_filter.mpr ⟨hin, ?_⟩, ?_⟩
      · simp only [Bool.and_eq_true, decide_eq_true_eq]
        exact ⟨List.take_left' rfl, trivial⟩
      · exact List.drop_left' rfl
  · intro h
    rw [arg_orphaned_sessions, if_pos h]
  · intro h
    rw [arg_orphaned_sessions, if_neg h]

/-- C8 witness: one unlocked marker, one unrelated file, one marker whose lock
is held by a live process. -/
theorem c8_witness :
    arg_orphaned_sessions [(orphanMarkerPre ++ ['a'], true), (['x'], true),
      (orphanMarkerPre ++ ['b'], false)] = killOption ++ ['a'] :=
  (c8_orphan_scan_spec [(orphanMarkerPre ++ ['a'], true), (['x'], true),
      (orphanMarkerPre ++ ['b'], false)]).2.2.2 (by decide)

/-- C9: `raw_tty` saves the terminal attributes, runs the body in raw mode and
restores exactly the saved attributes on every exit path (the body's exception
flag is propagated unchanged); when standard input is not a terminal the
context is the body alone — it changes no terminal state. -/
theorem c9_raw_tty_restores (rawOf : Nat → Nat) (m : Nat)
    (body : TtyWorld → TtyWorld × Bool)
    (hbody : ∀ u, ((body u).1.attrs).isSome = u.attrs.isSome) :
    ((raw_tty_run rawOf ⟨some m⟩ body).1 = ⟨some m⟩ ∧
      (raw_tty_run rawOf ⟨some m⟩ body).2 = (body ⟨some (rawOf m)⟩).2) ∧
    raw_tty_run rawOf ⟨none⟩ body = body ⟨none⟩ := by
  refine ⟨⟨?_, rfl⟩, rfl⟩
  show tcsetattr m (body ⟨some (rawOf m)⟩).1 = ⟨some m⟩
  have hb := hbody ⟨some (rawOf m)⟩
  rcases hw2 : (body ⟨some (rawOf m)⟩).1.attrs with _ | k
  · rw [hw2] at hb
    simp at hb
  · rw [tcsetattr, hw2]

/-- C9 witness: a body that raises; the attributes are still restored and the
exception propagates; a non-terminal is untouched. -/
theorem c9_witness :
    ((raw_tty_run (fun _ => 0) ⟨some 7⟩ (fun u => (u, true))).1 = ⟨some 7⟩ ∧
      (raw_tty_run (fun _ => 0) ⟨some 7⟩ (fun u => (u, true))).2 = true) ∧
    raw_tty_run (fun _ => 0) ⟨none⟩ (fun u => (u, true)) = (⟨none⟩, true) :=
  c9_raw_tty_restores (fun _ => 0) 7 (fun u => (u, true)) (fun _ => rfl)

/-- C10 (implicit): every invocation of `rossh_server.py` stops at module load
with an `ImportError` — before argument parsing, the version check, or any
frame emission — because it imports `set_sync_output` from `rossh_common`,
which defines no such name. -/
theorem c10_import_error (clientVersion : Nat) :
    rossh_server_run clientVersion = .importError ∧
    "set_sync_output" ∈ rossh_server_import_list ∧
    "set_sync_output" ∉ rossh_common_module_names :=
  ⟨rfl, by decide, by decide⟩

/-- C10 witness: the invocation with the matching client version `4` still
fails at import. -/
theorem c10_witness : rossh_server_run 4 = .importError :=
  (c10_import_error 4).1

end RoSSH

end ControlFlowClaims
